import Mathlib

/-!
Verification development for the Daily Brief news scripts
(`scripts/fetch_news.py` and `scripts/scripts_fetch_news.py`).

The Python code is shallowly embedded over `List Char`:

* `stripAll` models `re.sub(f"{START}[\s\S]*?{END}", "", html, flags=re.I)`:
  repeated leftmost shortest-match removal of marker-bounded regions,
  case-insensitively (ASCII case model, the markers are ASCII).
* `insertAt` models the insertion-point search: the regex
  `<section[^>]*id=['"]posts['"][\s\S]*?</section>` with leftmost-position,
  greedy-`[^>]*`-with-backtracking, lazy-tail semantics, then the fallback
  `html.lower().rfind("</main>")`, then end-of-document.
* `patchDoc` is the whole module-level injection block as a pure function of
  the document text and the fragment.
* `sectionGo`/`sectionState` model `_section` (instrumented with, per consulted
  feed, whether the GNews fallback was invoked, and the list of keywords it
  was invoked with); `buildBrief`/`fragmentOf` model `build_brief()` and the
  `build_brief() or placeholder` step; `injectIntoIndex` models the second
  script's splice-before-last-`</section>`.

Python's `str.lower` and `re.I` are modelled on the ASCII range (`low`);
all markers, anchors and patterns in the scripts are ASCII.
-/

namespace FetchNews

/-- ASCII lowercasing, the model of `str.lower`/`re.I` used throughout. -/
def low (c : Char) : Char :=
  if 'A' ≤ c ∧ c ≤ 'Z' then Char.ofNat (c.toNat + 32) else c

/-- Lowercase a character list. -/
def lowL (s : List Char) : List Char := s.map low

/-- Character list of a string literal. -/
def str (s : String) : List Char := s.data

/-- Case-insensitive "pat is a prefix of s". -/
def isPrefCI : List Char → List Char → Bool
  | [], _ => true
  | _ :: _, [] => false
  | p :: ps, c :: cs => (low p == low c) && isPrefCI ps cs

/-- Case-insensitive "pat occurs in s". -/
def containsCI (pat : List Char) : List Char → Bool
  | [] => isPrefCI pat []
  | c :: cs => isPrefCI pat (c :: cs) || containsCI pat cs

theorem lowL_append (a b : List Char) : lowL (a ++ b) = lowL a ++ lowL b :=
  List.map_append low a b

theorem length_lowL (s : List Char) : (lowL s).length = s.length :=
  List.length_map s low

theorem isPrefCI_iff (p s : List Char) :
    isPrefCI p s = true ↔ lowL p <+: lowL s := by
  induction p generalizing s with
  | nil => simp [isPrefCI, lowL]
  | cons a ps ih =>
    cases s with
    | nil => simp [isPrefCI, lowL]
    | cons c cs =>
      simp only [isPrefCI, Bool.and_eq_true, beq_iff_eq, lowL, List.map_cons,
        List.cons_prefix_cons]
      exact and_congr Iff.rfl (ih cs)

theorem isPrefCI_le {p s : List Char} (h : isPrefCI p s = true) :
    p.length ≤ s.length := by
  have := ((isPrefCI_iff p s).mp h).length_le
  simpa [length_lowL] using this

theorem isPrefCI_of_lowL_eq {p s₁ : List Char} (h : lowL s₁ = lowL p)
    (u : List Char) : isPrefCI p (s₁ ++ u) = true := by
  rw [isPrefCI_iff, lowL_append, h]
  exact List.prefix_append _ _

theorem isPrefCI_append_left (p x y : List Char)
    (h : p.length ≤ x.length) : isPrefCI p (x ++ y) = isPrefCI p x := by
  induction p generalizing x with
  | nil => simp [isPrefCI]
  | cons a ps ih =>
    cases x with
    | nil => simp at h
    | cons c cs =>
      simp only [List.cons_append, isPrefCI, List.append_eq]
      rw [ih cs (Nat.le_of_succ_le_succ h)]

theorem isPrefCI_eq_of_length {p w : List Char} (h : isPrefCI p w = true)
    (hl : w.length = p.length) : lowL p = lowL w :=
  ((isPrefCI_iff p w).mp h).eq_of_length (by simp [length_lowL, hl])

theorem isPrefCI_head_ne {p c : Char} {ps cs : List Char} (h : low p ≠ low c) :
    isPrefCI (p :: ps) (c :: cs) = false := by
  simp [isPrefCI, h]

theorem containsCI_exists (pat s : List Char) :
    containsCI pat s = true ↔ ∃ i, isPrefCI pat (s.drop i) = true := by
  induction s with
  | nil =>
    simp only [containsCI, List.drop_nil]
    exact ⟨fun h => ⟨0, h⟩, fun ⟨_, h⟩ => h⟩
  | cons c cs ih =>
    simp only [containsCI, Bool.or_eq_true]
    constructor
    · rintro (h | h)
      · exact ⟨0, h⟩
      · obtain ⟨i, hi⟩ := ih.mp h
        exact ⟨i + 1, hi⟩
    · rintro ⟨i, hi⟩
      cases i with
      | zero => exact Or.inl hi
      | succ j => exact Or.inr (ih.mpr ⟨j, hi⟩)

theorem containsCI_of_drop {pat s : List Char} (i : Nat)
    (h : isPrefCI pat (s.drop i) = true) : containsCI pat s = true :=
  (containsCI_exists pat s).mpr ⟨i, h⟩

theorem isPrefCI_of_take {p l : List Char} (m : Nat)
    (h : isPrefCI p (l.take m) = true) : isPrefCI p l = true := by
  rw [isPrefCI_iff] at h ⊢
  refine h.trans ?_
  show List.map low (l.take m) <+: lowL l
  rw [List.map_take]
  exact ⟨(List.map low l).drop m, List.take_append_drop m (List.map low l)⟩

theorem containsCI_take_false {pat s : List Char} (n : Nat)
    (h : containsCI pat s = false) : containsCI pat (s.take n) = false := by
  by_contra hc
  have hc' : containsCI pat (s.take n) = true := by
    cases hx : containsCI pat (s.take n) with
    | false => exact absurd hx hc
    | true => rfl
  obtain ⟨i, hi⟩ := (containsCI_exists _ _).mp hc'
  rw [List.drop_take] at hi
  exact absurd (containsCI_of_drop i (isPrefCI_of_take _ hi)) (by simp [h])

theorem containsCI_drop_false {pat s : List Char} (n : Nat)
    (h : containsCI pat s = false) : containsCI pat (s.drop n) = false := by
  by_contra hc
  have hc' : containsCI pat (s.drop n) = true := by
    cases hx : containsCI pat (s.drop n) with
    | false => exact absurd hx hc
    | true => rfl
  obtain ⟨i, hi⟩ := (containsCI_exists _ _).mp hc'
  rw [List.drop_drop] at hi
  exact absurd (containsCI_of_drop (n + i) hi) (by simp [h])

theorem containsCI_append_false_iff (pat x y : List Char) :
    containsCI pat (x ++ y) = false ↔
      (∀ i, i < x.length → isPrefCI pat (x.drop i ++ y) = false) ∧
        containsCI pat y = false := by
  induction x with
  | nil => simp
  | cons c cs ih =>
    simp only [List.cons_append, containsCI, Bool.or_eq_false_iff, List.append_eq]
    rw [ih]
    constructor
    · rintro ⟨h0, hs, hy⟩
      refine ⟨?_, hy⟩
      intro i hi
      cases i with
      | zero => simpa using h0
      | succ j => exact hs j (Nat.lt_of_succ_lt_succ hi)
    · rintro ⟨hall, hy⟩
      refine ⟨?_, ?_, hy⟩
      · simpa using hall 0 (Nat.succ_pos _)
      · intro j hj
        exact hall (j + 1) (Nat.succ_lt_succ hj)

/-! Sentinel markers of the injection block (`fetch_news.py`, line 167). -/

/-- The start sentinel `<!-- DAILY BRIEF START -->`. -/
def START' : List Char := str ("<!-- DAILY BRIEF START -->")

/-- The end sentinel `<!-- DAILY BRIEF END -->`. -/
def END' : List Char := str ("<!-- DAILY BRIEF END -->")

/-- Single newline, used by `wrapped = f"{START}\n{brief_html}\n{END}"`. -/
def nl' : List Char := str ("\n")

/-- A pattern has no nontrivial case-insensitive self-overlap: no proper
shift of it matches its own beginning. Both markers satisfy this (checked by
`decide`), which is what makes cross-boundary marker occurrences impossible. -/
def selfOverlapFree (p : List Char) : Bool :=
  (List.range p.length).all fun k =>
    (k == 0) || ((lowL p).drop k != (lowL p).take (p.length - k))

theorem selfOverlapFree_spec {p : List Char} (h : selfOverlapFree p = true)
    {k : Nat} (hk0 : 0 < k) (hk : k < p.length) :
    (lowL p).drop k ≠ (lowL p).take (p.length - k) := by
  have hall := (List.all_eq_true.mp h) k (List.mem_range.mpr hk)
  rcases Bool.or_eq_true_iff.mp hall with h0 | hne
  · have hk' : k = 0 := by simpa using h0
    exact absurd hk' (by omega)
  · exact bne_iff_ne.mp hne

theorem selfOverlapFree_START : selfOverlapFree START' = true := by decide

theorem selfOverlapFree_END : selfOverlapFree END' = true := by decide

/-- No case-insensitive occurrence of `pat` can start strictly inside `a` when
the text continues with a case-variant of `pat` itself: within-`a` occurrences
are excluded by `ha`, and occurrences straddling the boundary would force a
self-overlap of `pat`. -/
theorem noStraddleCI (pat a u s₁ : List Char) (hs : lowL s₁ = lowL pat)
    (ha : containsCI pat a = false) (hov : selfOverlapFree pat = true) :
    ∀ i, i < a.length → isPrefCI pat (a.drop i ++ (s₁ ++ u)) = false := by
  intro i hi
  by_contra hcon
  have htrue : isPrefCI pat (a.drop i ++ (s₁ ++ u)) = true := by
    cases hx : isPrefCI pat (a.drop i ++ (s₁ ++ u)) with
    | false => exact absurd hx hcon
    | true => rfl
  set w := a.drop i with hw
  have hwlen : w.length = a.length - i := by simp [hw]
  have hwpos : 0 < w.length := by omega
  by_cases hlen : pat.length ≤ w.length
  · rw [isPrefCI_append_left pat w (s₁ ++ u) hlen] at htrue
    exact absurd (containsCI_of_drop i htrue) (by simp [ha])
  · push_neg at hlen
    -- straddling case: the window extends into s₁, forcing a self-overlap
    have hpref : lowL pat <+: lowL w ++ (lowL pat ++ lowL u) := by
      have := (isPrefCI_iff pat (w ++ (s₁ ++ u))).mp htrue
      rw [lowL_append, lowL_append, hs] at this
      exact this
    have hlow_len : (lowL pat).length = pat.length := length_lowL pat
    have hwl : (lowL w).length = w.length := length_lowL w
    have htake : lowL pat =
        (lowL w ++ (lowL pat ++ lowL u)).take (lowL pat).length :=
      List.prefix_iff_eq_take.mp hpref
    rw [List.take_append_eq_append_take] at htake
    have h1 : (lowL w).take (lowL pat).length = lowL w :=
      List.take_of_length_le (by omega)
    rw [h1] at htake
    have h2 : (lowL pat ++ lowL u).take ((lowL pat).length - (lowL w).length) =
        (lowL pat).take ((lowL pat).length - (lowL w).length) := by
      rw [List.take_append_eq_append_take]
      have : (lowL pat).length - (lowL w).length - (lowL pat).length = 0 := by
        omega
      rw [this]
      simp
    rw [h2] at htake
    have hdrop := congrArg (List.drop (lowL w).length) htake
    rw [List.drop_left] at hdrop
    rw [hwl, hlow_len] at hdrop
    exact absurd hdrop (selfOverlapFree_spec hov hwpos (by omega))

/-! The strip phase:
`html_txt = re.sub(f"{START}[\s\S]*?{END}", "", html_txt, flags=re.I)`
(removes every non-overlapping leftmost shortest match, case-insensitively). -/

/-- Scan for the first case-insensitive occurrence of `pat`; return the
remainder after it (the lazy `[\s\S]*?pat` tail). `none` if `pat` never
occurs. (Only used with non-empty patterns.) -/
def dropThroughCI (pat : List Char) : List Char → Option (List Char)
  | [] => none
  | c :: cs =>
    if isPrefCI pat (c :: cs) = true then some (List.drop pat.length (c :: cs))
    else dropThroughCI pat cs

theorem dropThroughCI_le {pat : List Char} :
    ∀ {xs ys : List Char}, dropThroughCI pat xs = some ys →
      ys.length ≤ xs.length := by
  intro xs
  induction xs with
  | nil => intro ys h; simp [dropThroughCI] at h
  | cons c cs ih =>
    intro ys h
    rw [dropThroughCI] at h
    split at h
    · cases h
      simp
    · exact Nat.le_trans (ih h) (Nat.le_succ _)

theorem dropThroughCI_none_iff {pat : List Char} (hp : pat ≠ []) (xs : List Char) :
    dropThroughCI pat xs = none ↔ containsCI pat xs = false := by
  induction xs with
  | nil =>
    obtain ⟨p, ps, rfl⟩ : ∃ p ps, pat = p :: ps := by
      cases pat with
      | nil => exact absurd rfl hp
      | cons p ps => exact ⟨p, ps, rfl⟩
    simp [dropThroughCI, containsCI, isPrefCI]
  | cons c cs ih =>
    rw [dropThroughCI, containsCI]
    by_cases h : isPrefCI pat (c :: cs) = true
    · simp [h]
    · have hf : isPrefCI pat (c :: cs) = false := by
        cases hx : isPrefCI pat (c :: cs) with
        | false => rfl
        | true => exact absurd hx h
      simp [hf, ih]

theorem dropThroughCI_clean_append (pat x t : List Char)
    (hclean : ∀ i, i < x.length → isPrefCI pat (x.drop i ++ t) = false) :
    dropThroughCI pat (x ++ t) = dropThroughCI pat t := by
  induction x with
  | nil => simp
  | cons c cs ih =>
    rw [List.cons_append, dropThroughCI]
    have h0 := hclean 0 (Nat.succ_pos _)
    simp only [List.drop_zero, List.cons_append] at h0
    rw [h0]
    simp only [Bool.false_eq_true, if_false]
    exact ih fun i hi => hclean (i + 1) (Nat.succ_lt_succ hi)

theorem dropThroughCI_here {pat e₁ : List Char} (hp : pat ≠ [])
    (he : lowL e₁ = lowL pat) (b : List Char) :
    dropThroughCI pat (e₁ ++ b) = some b := by
  have hlen : e₁.length = pat.length := by
    have := congrArg List.length he
    simpa [length_lowL] using this
  obtain ⟨c, cs, rfl⟩ : ∃ c cs, e₁ = c :: cs := by
    cases e₁ with
    | nil =>
      exfalso
      apply hp
      cases pat with
      | nil => rfl
      | cons p ps => simp at hlen
    | cons c cs => exact ⟨c, cs, rfl⟩
  rw [List.cons_append, dropThroughCI, if_pos]
  · rw [← List.cons_append, List.drop_left' hlen]
  · rw [← List.cons_append]
    exact isPrefCI_of_lowL_eq he b

/-- Fuelled scanner for the strip `re.sub`: at each position, if a
case-variant of `START'` begins here and `END'` occurs after it, remove
through the first `END'` (leftmost shortest match) and continue after it;
otherwise keep the character and move on. Fuel `≥ length` always suffices. -/
def stripAllF : Nat → List Char → List Char
  | _, [] => []
  | 0, s => s
  | n + 1, c :: cs =>
    if isPrefCI START' (c :: cs) = true then
      match dropThroughCI END' (List.drop START'.length (c :: cs)) with
      | some rest => stripAllF n rest
      | none => c :: stripAllF n cs
    else c :: stripAllF n cs

/-- The strip phase of the patcher:
`re.sub(f"{START}[\s\S]*?{END}", "", html_txt, flags=re.I)`. -/
def stripAll (s : List Char) : List Char := stripAllF s.length s

theorem stripAllF_congr :
    ∀ n m s, s.length ≤ n → s.length ≤ m → stripAllF n s = stripAllF m s := by
  intro n
  induction n with
  | zero =>
    intro m s hn _
    have : s = [] := List.eq_nil_of_length_eq_zero (Nat.le_zero.mp hn)
    subst this
    cases m <;> rfl
  | succ n ih =>
    intro m s hn hm
    cases s with
    | nil => cases m <;> rfl
    | cons c cs =>
      cases m with
      | zero => simp at hm
      | succ m' =>
        rw [stripAllF, stripAllF]
        by_cases h : isPrefCI START' (c :: cs) = true
        · rw [if_pos h, if_pos h]
          cases hd : dropThroughCI END' (List.drop START'.length (c :: cs)) with
          | some rest =>
            have hr : rest.length ≤ (List.drop START'.length (c :: cs)).length :=
              dropThroughCI_le hd
            have hr' : rest.length ≤ cs.length := by
              simp only [List.length_drop, List.length_cons] at hr
              have : START'.length = 26 := by decide
              omega
            exact ih m' rest (by simpa using Nat.le_trans hr' (by simpa using hn))
              (by simpa using Nat.le_trans hr' (by simpa using hm))
          | none =>
            rw [ih m' cs (by simpa using hn) (by simpa using hm)]
        · rw [if_neg h, if_neg h, ih m' cs (by simpa using hn) (by simpa using hm)]

theorem stripAll_nil : stripAll [] = [] := rfl

theorem stripAll_cons (c : Char) (cs : List Char) :
    stripAll (c :: cs) =
      if isPrefCI START' (c :: cs) = true then
        match dropThroughCI END' (List.drop START'.length (c :: cs)) with
        | some rest => stripAll rest
        | none => c :: stripAll cs
      else c :: stripAll cs := by
  show stripAllF (c :: cs).length (c :: cs) = _
  rw [List.length_cons, stripAllF]
  by_cases h : isPrefCI START' (c :: cs) = true
  · rw [if_pos h, if_pos h]
    cases hd : dropThroughCI END' (List.drop START'.length (c :: cs)) with
    | some rest =>
      have hr : rest.length ≤ (List.drop START'.length (c :: cs)).length :=
        dropThroughCI_le hd
      have hr' : rest.length ≤ cs.length := by
        simp only [List.length_drop, List.length_cons] at hr
        have : START'.length = 26 := by decide
        omega
      exact stripAllF_congr cs.length rest.length rest hr' (Nat.le_refl _)
    | none => rfl
  · rw [if_neg h, if_neg h]
    rfl

theorem stripAll_clean_append (a t : List Char)
    (hclean : ∀ i, i < a.length → isPrefCI START' (a.drop i ++ t) = false) :
    stripAll (a ++ t) = a ++ stripAll t := by
  induction a with
  | nil => simp
  | cons c cs ih =>
    rw [List.cons_append, stripAll_cons]
    have h0 := hclean 0 (Nat.succ_pos _)
    simp only [List.drop_zero, List.cons_append] at h0
    rw [if_neg (by simp [h0])]
    rw [ih fun i hi => hclean (i + 1) (Nat.succ_lt_succ hi), List.cons_append]

theorem stripAll_of_noStart {s : List Char} (h : containsCI START' s = false) :
    stripAll s = s := by
  induction s with
  | nil => rfl
  | cons c cs ih =>
    rw [containsCI, Bool.or_eq_false_iff] at h
    rw [stripAll_cons, if_neg (by simp [h.1]), ih h.2]

/-- A document has a complete marker-bounded region: some position where a
case-variant of `START'` begins and `END'` occurs somewhere after it. -/
def hasRegionCI : List Char → Bool
  | [] => false
  | c :: cs =>
    (isPrefCI START' (c :: cs) &&
      containsCI END' (List.drop START'.length (c :: cs))) || hasRegionCI cs

theorem stripAll_of_noRegion {s : List Char} (h : hasRegionCI s = false) :
    stripAll s = s := by
  induction s with
  | nil => rfl
  | cons c cs ih =>
    rw [hasRegionCI, Bool.or_eq_false_iff, Bool.and_eq_false_iff] at h
    rw [stripAll_cons]
    by_cases hp : isPrefCI START' (c :: cs) = true
    · have hcont : containsCI END' (List.drop START'.length (c :: cs)) = false := by
        rcases h.1 with h1 | h1
        · exact absurd hp (by simp [h1])
        · exact h1
      have hnone : dropThroughCI END' (List.drop START'.length (c :: cs)) = none :=
        (dropThroughCI_none_iff (by decide) _).mpr hcont
      rw [if_pos hp, hnone, ih h.2]
    · rw [if_neg hp, ih h.2]

/-- Removing one complete marker region: `a` is free of the start marker,
`m` is free of the end marker, `s₁`/`e₁` are case-variants of the two
markers; the scan keeps `a`, removes `s₁ ++ m ++ e₁`, and continues on `b`. -/
theorem stripAll_region (a m b s₁ e₁ : List Char)
    (hs : lowL s₁ = lowL START') (he : lowL e₁ = lowL END')
    (ha : containsCI START' a = false) (hm : containsCI END' m = false) :
    stripAll (a ++ (s₁ ++ (m ++ (e₁ ++ b)))) = a ++ stripAll b := by
  rw [stripAll_clean_append a _
    (noStraddleCI START' a (m ++ (e₁ ++ b)) s₁ hs ha selfOverlapFree_START)]
  congr 1
  have hlen : s₁.length = START'.length := by
    have := congrArg List.length hs
    simpa [length_lowL] using this
  obtain ⟨c, cs, rfl⟩ : ∃ c cs, s₁ = c :: cs := by
    cases s₁ with
    | nil => simp [lowL] at hs; exact absurd hs.symm (by decide)
    | cons c cs => exact ⟨c, cs, rfl⟩
  rw [List.cons_append, stripAll_cons, if_pos (by
    rw [← List.cons_append]; exact isPrefCI_of_lowL_eq hs _)]
  rw [← List.cons_append, List.drop_left' hlen]
  rw [dropThroughCI_clean_append END' m (e₁ ++ b)
    (noStraddleCI END' m b e₁ he hm selfOverlapFree_END)]
  rw [dropThroughCI_here (by decide) he b]

/-- The end marker cannot occur in `"\n" + f + "\n"` when it does not occur
in `f`: it contains no newline, and straddling the trailing newline would put
a newline at its last position. -/
theorem nl_sandwich_free (f : List Char) (hf : containsCI END' f = false) :
    containsCI END' (nl' ++ (f ++ nl')) = false := by
  have hx : nl' ++ (f ++ nl') = ('\n' :: f) ++ [ '\n' ] := by
    simp [nl', str]
  rw [hx, containsCI_append_false_iff]
  refine ⟨?_, by decide⟩
  intro i hi
  cases i with
  | zero =>
    simp only [List.drop_zero, List.cons_append]
    have hE : END' = '<' :: str ("!-- DAILY BRIEF END -->") := rfl
    rw [hE]
    exact isPrefCI_head_ne (by decide)
  | succ j =>
    simp only [List.drop_succ_cons]
    by_cases hle : END'.length ≤ (f.drop j).length
    · rw [isPrefCI_append_left END' (f.drop j) [ '\n' ] hle]
      cases hx2 : isPrefCI END' (f.drop j) with
      | false => rfl
      | true => exact absurd (containsCI_of_drop j hx2) (by simp [hf])
    · cases hx2 : isPrefCI END' (f.drop j ++ [ '\n' ]) with
      | false => rfl
      | true =>
        exfalso
        have hlen := isPrefCI_le hx2
        rw [List.length_append] at hlen
        simp only [List.length_cons, List.length_nil] at hlen
        push_neg at hle
        have hgoal : (f.drop j ++ [ '\n' ]).length = END'.length := by
          rw [List.length_append]
          simp only [List.length_cons, List.length_nil]
          omega
        have heq : lowL END' = lowL (f.drop j ++ [ '\n' ]) :=
          isPrefCI_eq_of_length hx2 hgoal
        have hlast : (lowL (f.drop j ++ [ '\n' ])).getLast? = some '\n' := by
          rw [lowL_append]
          have hnl : lowL [ '\n' ] = [ '\n' ] := by decide
          rw [hnl]
          exact List.getLast?_concat _
        rw [← heq] at hlast
        have hgt : (lowL END').getLast? = some '>' := by decide
        rw [hgt] at hlast
        exact absurd (Option.some.inj hlast) (by decide)

/-! The locate phase:
`m = re.search(r'<section[^>]*id=[\'"]posts[\'"][\s\S]*?</section>', html, re.I)`
then `html.lower().rfind("</main>")`, then end of document. -/

/-- Index of the first case-insensitive occurrence of `pat`. -/
def findCI (pat : List Char) : List Char → Option Nat
  | [] => if isPrefCI pat [] = true then some 0 else none
  | c :: cs =>
    if isPrefCI pat (c :: cs) = true then some 0
    else (findCI pat cs).map (· + 1)

/-- Index of the last case-insensitive occurrence of `pat`
(`str.lower().rfind`, `none` for `-1`). -/
def rfindCI (pat : List Char) : List Char → Option Nat
  | [] => if isPrefCI pat [] = true then some 0 else none
  | c :: cs =>
    match rfindCI pat cs with
    | some i => some (i + 1)
    | none => if isPrefCI pat (c :: cs) = true then some 0 else none

/-- Number of leading characters other than `'>'` (the maximal extent of the
greedy `[^>]*`). -/
def leadingNonGt : List Char → Nat
  | [] => 0
  | c :: cs => if c = '>' then 0 else leadingNonGt cs + 1

def sectOpen : List Char := str ("<section")

def sectClose : List Char := str ("</section>")

def mainClose : List Char := str ("</main>")

def isQuote (c : Char) : Bool := (c == '\'') || (c == '"')

/-- Does `id=['"]posts['"]` (case-insensitively, quotes independent) match at
the head of `s`? The matched part is 10 characters long. -/
def idPostsAt (s : List Char) : Bool :=
  isPrefCI (str ("id=")) s &&
    (match s.drop 3 with
     | [] => false
     | q :: rest =>
       isQuote q && isPrefCI (str ("posts")) rest &&
         (match rest.drop 5 with
          | [] => false
          | q2 :: _ => isQuote q2))

/-- Try one backtracking choice `k` of the greedy `[^>]*` (measured from the
end of `<section`): the id part must match at offset `k`, and the lazy
`[\s\S]*?</section>` must find a closing tag after it. Returns the match end
offset relative to the position right after `<section`. -/
def tryK (t : List Char) (k : Nat) : Option Nat :=
  if idPostsAt (t.drop k) = true then
    match findCI sectClose (t.drop (k + 10)) with
    | some j => some (k + 10 + j + sectClose.length)
    | none => none
  else none

/-- Backtrack the greedy `[^>]*` from the largest extent downwards. -/
def tryKs (t : List Char) : Nat → Option Nat
  | 0 => tryK t 0
  | k + 1 =>
    match tryK t (k + 1) with
    | some e => some e
    | none => tryKs t k

/-- `re.search` of the posts-section pattern: leftmost starting position wins;
returns `m.end()`. -/
def sectionSearchAux : List Char → Option Nat
  | [] => none
  | c :: cs =>
    if isPrefCI sectOpen (c :: cs) = true then
      match tryKs (List.drop sectOpen.length (c :: cs))
          (leadingNonGt (List.drop sectOpen.length (c :: cs))) with
      | some e => some (sectOpen.length + e)
      | none => (sectionSearchAux cs).map (· + 1)
    else (sectionSearchAux cs).map (· + 1)

/-- The insertion point of the injection block: before the closing tag of the
matched posts section if the regex matched, else before the last
case-insensitive `</main>`, else the end of the document. -/
def insertAt (s : List Char) : Nat :=
  match sectionSearchAux s with
  | some e => e - sectClose.length
  | none =>
    match rfindCI mainClose s with
    | some i => i
    | none => s.length

/-- `wrapped = f"{START}\n{brief_html}\n{END}"`. -/
def wrapFrag (f : List Char) : List Char := START' ++ nl' ++ f ++ nl' ++ END'

/-- The whole module-level injection block as a pure function: strip all old
marker regions, locate the insertion point in the stripped document, splice
the wrapped fragment in. -/
def patchDoc (doc f : List Char) : List Char :=
  let d := stripAll doc
  let i := insertAt d
  d.take i ++ wrapFrag f ++ d.drop i

/-- Core guarantee of the patcher on marker-disjoint inputs: patching is
idempotent and the patched document is the stripped document with exactly one
wrapped region spliced in (its two sides are free of the start marker, so no
other region can begin there). -/
theorem patch_region_core (doc f : List Char)
    (hd : containsCI START' doc = false) (hf : containsCI END' f = false) :
    patchDoc (patchDoc doc f) f = patchDoc doc f ∧
      ∃ a b, patchDoc doc f = a ++ wrapFrag f ++ b ∧
        stripAll (patchDoc doc f) = a ++ b ∧
        containsCI START' a = false ∧ containsCI START' b = false := by
  have hsd : stripAll doc = doc := stripAll_of_noStart hd
  have hP : patchDoc doc f =
      doc.take (insertAt doc) ++ wrapFrag f ++ doc.drop (insertAt doc) := by
    rw [patchDoc, hsd]
  have ha : containsCI START' (doc.take (insertAt doc)) = false :=
    containsCI_take_false _ hd
  have hb : containsCI START' (doc.drop (insertAt doc)) = false :=
    containsCI_drop_false _ hd
  have hshape : patchDoc doc f =
      doc.take (insertAt doc) ++
        (START' ++ ((nl' ++ (f ++ nl')) ++ (END' ++ doc.drop (insertAt doc)))) := by
    rw [hP, wrapFrag]
    simp [List.append_assoc]
  have hstrip : stripAll (patchDoc doc f) =
      doc.take (insertAt doc) ++ doc.drop (insertAt doc) := by
    rw [hshape]
    have := stripAll_region (doc.take (insertAt doc)) (nl' ++ (f ++ nl'))
      (doc.drop (insertAt doc)) START' END' rfl rfl ha (nl_sandwich_free f hf)
    simp only [List.append_assoc] at this ⊢
    rw [this, stripAll_of_noStart hb]
  have hstrip' : stripAll (patchDoc doc f) = doc := by
    rw [hstrip, List.take_append_drop]
  constructor
  · rw [patchDoc, hstrip', hP]
  · exact ⟨doc.take (insertAt doc), doc.drop (insertAt doc), hP, by
      rw [hstrip], ha, hb⟩

/-- C1 (amended): for every document `doc` in which the start marker does not
occur (case-insensitively) and every fragment `f` in which the end marker does
not occur, applying the document patcher twice with the same fragment equals
applying it once, and the resulting document is the original split at the
insertion point with exactly one marker-bounded wrapped region containing the
latest fragment spliced between the two start-marker-free sides. (For
arbitrary strings the claim is false, see the counterexample with a stray
start marker.) -/
theorem patch_idempotent_marker_free (doc f : List Char)
    (hd : containsCI START' doc = false) (hf : containsCI END' f = false) :
    patchDoc (patchDoc doc f) f = patchDoc doc f ∧
      ∃ a b, patchDoc doc f = a ++ wrapFrag f ++ b ∧
        stripAll (patchDoc doc f) = a ++ b ∧
        containsCI START' a = false ∧ containsCI START' b = false :=
  patch_region_core doc f hd hf

/-- C1 witness: the amended idempotence theorem applied at a concrete
marker-free document and fragment. -/
theorem patch_idempotent_marker_free_witness :
    patchDoc (patchDoc (str ("<main>ok</main>")) (str ("<p>news</p>")))
        (str ("<p>news</p>")) =
      patchDoc (str ("<main>ok</main>")) (str ("<p>news</p>")) ∧
      ∃ a b, patchDoc (str ("<main>ok</main>")) (str ("<p>news</p>")) =
          a ++ wrapFrag (str ("<p>news</p>")) ++ b ∧
        stripAll (patchDoc (str ("<main>ok</main>")) (str ("<p>news</p>"))) =
          a ++ b ∧
        containsCI START' a = false ∧ containsCI START' b = false :=
  patch_idempotent_marker_free (str ("<main>ok</main>")) (str ("<p>news</p>"))
    (by decide) (by decide)

/-- C1 counterexample: for a document containing a stray start marker (with no
end marker), the second patch swallows the stray marker and the document text
after it, so `patch(patch(doc, f), f) ≠ patch(doc, f)`: the claim as stated
over every document and fragment is false. -/
theorem patch_not_idempotent_stray_marker :
    patchDoc (patchDoc (START' ++ str (" x")) (str ("F"))) (str ("F")) ≠
      patchDoc (START' ++ str (" x")) (str ("F")) := by
  decide

/-- C5 (amended): the strip phase removes every marker-bounded region
(leftmost-first, shortest match, matching both markers literally up to ASCII
case), not only the first occurrence; a document containing no complete
marker-bounded region is unchanged. -/
theorem strip_removes_all_regions :
    (∀ s, hasRegionCI s = false → stripAll s = s) ∧
    (∀ a m b s₁ e₁, lowL s₁ = lowL START' → lowL e₁ = lowL END' →
      containsCI START' a = false → containsCI END' m = false →
      stripAll (a ++ (s₁ ++ (m ++ (e₁ ++ b)))) = a ++ stripAll b) :=
  ⟨fun _ h => stripAll_of_noRegion h,
   fun a m b s₁ e₁ hs he ha hm => stripAll_region a m b s₁ e₁ hs he ha hm⟩

/-- C5 witness: a case-variant region is removed (and the scan continues on
the remainder, which holds a second region, also removed), and a document
without any region is unchanged. -/
theorem strip_removes_all_regions_witness :
    stripAll (str ("a") ++ (str ("<!-- daily brief start -->") ++
        (str ("OLD") ++ (str ("<!-- Daily Brief End -->") ++
          (START' ++ (END' ++ str ("z"))))))) =
      str ("a") ++ stripAll (START' ++ (END' ++ str ("z"))) ∧
    stripAll (str ("plain text")) = str ("plain text") :=
  ⟨strip_removes_all_regions.2 _ _ _ _ _ (by decide) (by decide) (by decide)
      (by decide),
   strip_removes_all_regions.1 _ (by decide)⟩

/-- C5 counterexample: on a document with two marker-bounded regions the strip
phase removes both (the result is `"xy"`), not only the first (which would
leave `"x" ++ START ++ END ++ "y"`). -/
theorem strip_not_first_only :
    stripAll (START' ++ END' ++ str ("x") ++ START' ++ END' ++ str ("y")) =
        str ("xy") ∧
      stripAll (START' ++ END' ++ str ("x") ++ START' ++ END' ++ str ("y")) ≠
        str ("x") ++ START' ++ END' ++ str ("y") := by
  decide

theorem findCI_some {pat : List Char} :
    ∀ {s : List Char} {j : Nat}, findCI pat s = some j →
      isPrefCI pat (s.drop j) = true := by
  intro s
  induction s with
  | nil =>
    intro j h
    rw [findCI] at h
    split at h
    · cases h
      simpa using by assumption
    · cases h
  | cons c cs ih =>
    intro j h
    rw [findCI] at h
    split at h
    · cases h
      simpa using by assumption
    · rw [Option.map_eq_some'] at h
      obtain ⟨j', hj', rfl⟩ := h
      simpa using ih hj'

theorem tryK_some {t : List Char} {k e : Nat} (h : tryK t k = some e) :
    sectClose.length ≤ e ∧
      isPrefCI sectClose (t.drop (e - sectClose.length)) = true := by
  rw [tryK] at h
  split at h
  · split at h
    · cases h
      next j hj =>
        have hp := findCI_some hj
        constructor
        · omega
        · rw [List.drop_drop] at hp
          have : k + 10 + j + sectClose.length - sectClose.length =
              k + 10 + j := by omega
          rw [this]
          exact hp
    · cases h
  · cases h

theorem tryKs_some {t : List Char} :
    ∀ {K e : Nat}, tryKs t K = some e → ∃ k, tryK t k = some e := by
  intro K
  induction K with
  | zero => exact fun h => ⟨0, h⟩
  | succ K ih =>
    intro e h
    rw [tryKs] at h
    split at h
    · next e' he' =>
      cases h
      exact ⟨K + 1, he'⟩
    · exact ih h

theorem sectionSearchAux_some :
    ∀ {s : List Char} {e : Nat}, sectionSearchAux s = some e →
      sectClose.length ≤ e ∧
        isPrefCI sectClose (s.drop (e - sectClose.length)) = true := by
  intro s
  induction s with
  | nil => intro e h; cases h
  | cons c cs ih =>
    intro e h
    rw [sectionSearchAux] at h
    split at h
    · split at h
      · next e' he' =>
        cases h
        obtain ⟨k, hk⟩ := tryKs_some he'
        obtain ⟨hle, hp⟩ := tryK_some hk
        constructor
        · omega
        · rw [List.drop_drop] at hp
          have harr : sectOpen.length + e' - sectClose.length =
              sectOpen.length + (e' - sectClose.length) := by omega
          rw [harr]
          exact hp
      · rw [Option.map_eq_some'] at h
        obtain ⟨e', he', rfl⟩ := h
        obtain ⟨hle, hp⟩ := ih he'
        constructor
        · omega
        · have harr : e' + 1 - sectClose.length = (e' - sectClose.length) + 1 := by
            omega
          rw [harr]
          simpa using hp
    · rw [Option.map_eq_some'] at h
      obtain ⟨e', he', rfl⟩ := h
      obtain ⟨hle, hp⟩ := ih he'
      constructor
      · omega
      · have harr : e' + 1 - sectClose.length = (e' - sectClose.length) + 1 := by
          omega
        rw [harr]
        simpa using hp

theorem rfindCI_some_here {pat : List Char} :
    ∀ {s : List Char} {i : Nat}, rfindCI pat s = some i →
      isPrefCI pat (s.drop i) = true := by
  intro s
  induction s with
  | nil =>
    intro i h
    rw [rfindCI] at h
    split at h
    · cases h
      simpa using by assumption
    · cases h
  | cons c cs ih =>
    intro i h
    rw [rfindCI] at h
    split at h
    · next m hm =>
      cases h
      simpa using ih hm
    · split at h
      · cases h
        simpa using by assumption
      · cases h

theorem rfindCI_none_all {pat : List Char} (hp : pat ≠ []) :
    ∀ {s : List Char}, rfindCI pat s = none →
      ∀ j, isPrefCI pat (s.drop j) = false := by
  intro s
  induction s with
  | nil =>
    intro _ j
    obtain ⟨p, ps, rfl⟩ : ∃ p ps, pat = p :: ps := by
      cases pat with
      | nil => exact absurd rfl hp
      | cons p ps => exact ⟨p, ps, rfl⟩
    simp [isPrefCI]
  | cons c cs ih =>
    intro h j
    rw [rfindCI] at h
    split at h
    · cases h
    · split at h
      · cases h
      · next hpref =>
        cases j with
        | zero =>
          simp only [List.drop_zero]
          cases hx : isPrefCI pat (c :: cs) with
          | false => rfl
          | true => exact absurd hx hpref
        | succ j' =>
          simp only [List.drop_succ_cons]
          exact ih (by assumption) j'

theorem rfindCI_some_max {pat : List Char} (hp : pat ≠ []) :
    ∀ {s : List Char} {i : Nat}, rfindCI pat s = some i →
      ∀ j, i < j → isPrefCI pat (s.drop j) = false := by
  intro s
  induction s with
  | nil =>
    intro i h j _
    rw [rfindCI] at h
    split at h
    · next hx =>
      obtain ⟨p, ps, rfl⟩ : ∃ p ps, pat = p :: ps := by
        cases pat with
        | nil => exact absurd rfl hp
        | cons p ps => exact ⟨p, ps, rfl⟩
      simp [isPrefCI] at hx
    · cases h
  | cons c cs ih =>
    intro i h j hij
    rw [rfindCI] at h
    split at h
    · next m hm =>
      cases h
      cases j with
      | zero => omega
      | succ j' =>
        simp only [List.drop_succ_cons]
        exact ih hm j' (by omega)
    · next hnone =>
      split at h
      · cases h
        cases j with
        | zero => omega
        | succ j' =>
          simp only [List.drop_succ_cons]
          exact rfindCI_none_all hp hnone j'
      · cases h

theorem rfindCI_of_max {pat : List Char} (hp : pat ≠ []) :
    ∀ {s : List Char} {i : Nat}, isPrefCI pat (s.drop i) = true →
      (∀ j, i < j → isPrefCI pat (s.drop j) = false) →
      rfindCI pat s = some i := by
  intro s
  induction s with
  | nil =>
    intro i hi _
    exfalso
    obtain ⟨p, ps, rfl⟩ : ∃ p ps, pat = p :: ps := by
      cases pat with
      | nil => exact absurd rfl hp
      | cons p ps => exact ⟨p, ps, rfl⟩
    simp [isPrefCI] at hi
  | cons c cs ih =>
    intro i hi hmax
    cases i with
    | zero =>
      have hnone : rfindCI pat cs = none := by
        cases hr : rfindCI pat cs with
        | none => rfl
        | some m =>
          have := rfindCI_some_here hr
          have hcontra := hmax (m + 1) (Nat.succ_pos _)
          simp only [List.drop_succ_cons] at hcontra
          rw [this] at hcontra
          cases hcontra
      rw [rfindCI, hnone]
      simp only [List.drop_zero] at hi
      rw [if_pos hi]
    | succ i' =>
      simp only [List.drop_succ_cons] at hi
      have hr : rfindCI pat cs = some i' := by
        apply ih hi
        intro j hj
        have := hmax (j + 1) (by omega)
        simpa using this
      rw [rfindCI, hr]

theorem rfindCI_of_contains {pat s : List Char} (hp : pat ≠ [])
    (h : containsCI pat s = true) : ∃ i, rfindCI pat s = some i := by
  cases hr : rfindCI pat s with
  | some i => exact ⟨i, rfl⟩
  | none =>
    exfalso
    obtain ⟨i, hi⟩ := (containsCI_exists pat s).mp h
    rw [rfindCI_none_all hp hr i] at hi
    cases hi

/-- C6: the insertion point. If the posts-section regex matches with end `e`,
insertion happens at `e - len("</section>")`, which is the start of the
matched region's closing `</section>` tag (append-as-last-child). If it does
not match and the lowered document contains `</main>`, insertion happens at
the last case-insensitive occurrence of `</main>` (there is a `</main>` there
and none after it). If neither is found, insertion is at the end of the
document. -/
theorem insertAt_cases (s : List Char) :
    (∀ e, sectionSearchAux s = some e →
      insertAt s = e - sectClose.length ∧
        isPrefCI sectClose (s.drop (e - sectClose.length)) = true) ∧
    (sectionSearchAux s = none →
      (∀ i, rfindCI mainClose s = some i →
        insertAt s = i ∧ isPrefCI mainClose (s.drop i) = true ∧
          ∀ j, i < j → isPrefCI mainClose (s.drop j) = false) ∧
      (rfindCI mainClose s = none →
        insertAt s = s.length ∧ containsCI mainClose s = false)) := by
  constructor
  · intro e he
    constructor
    · rw [insertAt, he]
    · exact (sectionSearchAux_some he).2
  · intro hnone
    constructor
    · intro i hi
      refine ⟨?_, rfindCI_some_here hi, rfindCI_some_max (by decide) hi⟩
      rw [insertAt, hnone, hi]
    · intro hrnone
      constructor
      · rw [insertAt, hnone, hrnone]
      · cases hc : containsCI mainClose s with
        | false => rfl
        | true =>
          exfalso
          obtain ⟨i, hi⟩ := rfindCI_of_contains (by decide) hc
          rw [hi] at hrnone
          cases hrnone

/-- C6 witness: the three branches at concrete documents: a document with a
posts section (insertion right before its `</section>`), one with only a
case-variant `</MAIN>` (insertion before its last occurrence), and one with
neither (insertion at the end). -/
theorem insertAt_cases_witness :
    (insertAt (str ("<main><section id='posts'>x</section></main>")) =
        37 - sectClose.length ∧
      isPrefCI sectClose
        ((str ("<main><section id='posts'>x</section></main>")).drop
          (37 - sectClose.length)) = true) ∧
    (insertAt (str ("<div>a</DIV></MAIN>")) = 12 ∧
      isPrefCI mainClose ((str ("<div>a</DIV></MAIN>")).drop 12) = true) ∧
    (insertAt (str ("<p>hi</p>")) = (str ("<p>hi</p>")).length ∧
      containsCI mainClose (str ("<p>hi</p>")) = false) := by
  refine ⟨(insertAt_cases _).1 37 (by decide), ?_, ?_⟩
  · have h := ((insertAt_cases (str ("<div>a</DIV></MAIN>"))).2 (by decide)).1
      12 (by decide)
    exact ⟨h.1, h.2.1⟩
  · exact ((insertAt_cases (str ("<p>hi</p>"))).2 (by decide)).2 (by decide)

/-! `scripts_fetch_news.py`: `inject_into_index` splices before the last
case-insensitive `</section>` without any strip phase. -/

/-- `inject_into_index(block)` as a pure function on the document text:
`none` models the `sys.exit` when no `</section>` is present. -/
def injectIntoIndex (doc block : List Char) : Option (List Char) :=
  match rfindCI sectClose doc with
  | some i => some (doc.take i ++ block ++ doc.drop i)
  | none => none

/-- C10: `inject_into_index` splices the block immediately before the last
case-insensitive `</section>` and performs no removal, so injecting the same
block twice accumulates two adjacent copies at that position. -/
theorem inject_accumulates (doc block : List Char)
    (h : containsCI sectClose doc = true) :
    ∃ i, rfindCI sectClose doc = some i ∧
      isPrefCI sectClose (doc.drop i) = true ∧
      (∀ j, i < j → isPrefCI sectClose (doc.drop j) = false) ∧
      injectIntoIndex doc block = some (doc.take i ++ block ++ doc.drop i) ∧
      injectIntoIndex (doc.take i ++ block ++ doc.drop i) block =
        some (doc.take i ++ block ++ (block ++ doc.drop i)) := by
  obtain ⟨i, hi⟩ := rfindCI_of_contains (by decide) h
  have hpref := rfindCI_some_here hi
  have hmax := rfindCI_some_max (by decide) hi
  have hile : i ≤ doc.length := by
    have hlen := isPrefCI_le hpref
    rw [List.length_drop] at hlen
    have : sectClose.length = 10 := by decide
    omega
  have hxlen : (doc.take i ++ block).length = i + block.length := by
    rw [List.length_append, List.length_take]
    omega
  have hd1 : doc.take i ++ block ++ doc.drop i =
      (doc.take i ++ block) ++ doc.drop i := rfl
  have hrf2 : rfindCI sectClose (doc.take i ++ block ++ doc.drop i) =
      some (i + block.length) := by
    rw [hd1]
    apply rfindCI_of_max (by decide)
    · rw [← hxlen]
      rw [List.drop_left]
      exact hpref
    · intro j hj
      have hdrop : ((doc.take i ++ block) ++ doc.drop i).drop j =
          (doc.drop i).drop (j - (doc.take i ++ block).length) := by
        rw [List.drop_append_eq_append_drop]
        rw [List.drop_of_length_le (by omega)]
        rw [List.nil_append]
      rw [hdrop, List.drop_drop]
      apply hmax
      rw [hxlen]
      omega
  refine ⟨i, hi, hpref, hmax, ?_, ?_⟩
  · rw [injectIntoIndex, hi]
  · rw [injectIntoIndex, hrf2]
    show some (List.take (i + block.length)
          (List.take i doc ++ block ++ List.drop i doc) ++ block ++
        List.drop (i + block.length)
          (List.take i doc ++ block ++ List.drop i doc)) =
      some (List.take i doc ++ block ++ (block ++ List.drop i doc))
    rw [List.take_left' hxlen, List.drop_left' hxlen]
    simp [List.append_assoc]

/-- C10 witness: injecting `"B"` twice into `"<p></section>"` yields
`"<p>BB</section>"`: the two copies accumulate. -/
theorem inject_accumulates_witness :
    injectIntoIndex (str ("<p></section>")) (str ("B")) =
        some (str ("<p>B</section>")) ∧
      injectIntoIndex (str ("<p>B</section>")) (str ("B")) =
        some (str ("<p>BB</section>")) := by
  obtain ⟨i, hi, hp, hm, h1, h2⟩ :=
    inject_accumulates (str ("<p></section>")) (str ("B")) (by decide)
  have hi3 : rfindCI sectClose (str ("<p></section>")) = some 3 := by decide
  rw [hi3] at hi
  cases hi
  constructor
  · rw [h1]
    decide
  · have hmid : (str ("<p></section>")).take 3 ++ str ("B") ++
        (str ("<p></section>")).drop 3 = str ("<p>B</section>") := by decide
    rw [hmid] at h2
    rw [h2]
    decide

/-! The aggregation pipeline of `fetch_news.py`. A feedparser entry is
modelled by its three fields used by `_fmt` (`entry.get("summary") or
entry.get("description")` is modelled as the single `summary` field). The
network is an oracle: `parse url` is `feedparser.parse(url).entries` and
`gnews kw` the entries of the GNews query for keyword `kw`. -/

structure Entry where
  title : List Char
  link : List Char
  summary : List Char
deriving DecidableEq

/-- `html.escape` (quote=True): `&`, `<`, `>`, `"`, `'`. -/
def escapeChar (c : Char) : List Char :=
  if c = '&' then str ("&amp;")
  else if c = '<' then str ("&lt;")
  else if c = '>' then str ("&gt;")
  else if c = '"' then str ("&quot;")
  else if c = '\'' then str ("&#x27;")
  else [c]

def escapeHtml (s : List Char) : List Char := (s.map escapeChar).flatten

/-- Skip to just after the next `'>'`. -/
def dropToGt : List Char → Option (List Char)
  | [] => none
  | c :: cs => if c = '>' then some cs else dropToGt cs

/-- A match of `<[^>]+>` directly after a `'<'`: at least one non-`'>'`
character, then the closing `'>'`; returns the remainder. -/
def tagRest (cs : List Char) : Option (List Char) :=
  match cs with
  | [] => none
  | d :: ds => if d = '>' then none else dropToGt (d :: ds)

theorem dropToGt_lt : ∀ {xs ys : List Char}, dropToGt xs = some ys →
    ys.length < xs.length := by
  intro xs
  induction xs with
  | nil => intro ys h; cases h
  | cons c cs ih =>
    intro ys h
    rw [dropToGt] at h
    split at h
    · cases h
      simp
    · exact Nat.lt_trans (ih h) (Nat.lt_succ_self _)

theorem tagRest_lt {cs ys : List Char} (h : tagRest cs = some ys) :
    ys.length < cs.length := by
  rw [tagRest.eq_def] at h
  split at h
  · cases h
  · split at h
    · cases h
    · exact dropToGt_lt h

/-- Fuelled scanner for `re.sub("<[^>]+>", "", raw)`. -/
def stripTagsF : Nat → List Char → List Char
  | _, [] => []
  | 0, s => s
  | n + 1, c :: cs =>
    if c = '<' then
      match tagRest cs with
      | some rest => stripTagsF n rest
      | none => c :: stripTagsF n cs
    else c :: stripTagsF n cs

/-- `re.sub("<[^>]+>", "", raw)`: remove every HTML tag. -/
def stripTags (s : List Char) : List Char := stripTagsF s.length s

/-- `_fmt`: format one entry into a `<li>`. -/
def fmt (e : Entry) : List Char :=
  str ("<li><strong><a href=\"") ++ e.link ++ str ("\" target=\"_blank\">") ++
    escapeHtml e.title ++ str ("</a></strong><br><p class=\"snippet\">") ++
    (escapeHtml (stripTags e.summary)).take 260 ++ str (" <a href=\"") ++
    e.link ++ str ("\" target=\"_blank\">Voir la suite →</a></p></li>")

/-- `_gnews_fallback`: with no API key the fallback contributes nothing;
otherwise up to 5 entries of the GNews response for the keyword. -/
def gnewsFallback (key : List Char) (gnews : List Char → List Entry)
    (kw : List Char) : List Entry :=
  if key = [] then [] else (gnews kw).take 5

/-- `name.split()[0]`: the first whitespace-separated token (empty if the
name has no token; the Python code would raise there, but every configured
category name has one). -/
def firstWord (s : List Char) : List Char :=
  (s.dropWhile fun c => c.isWhitespace).takeWhile fun c => !c.isWhitespace

/-- Result of `_section`'s loop, instrumented: the accumulated items (as
entries; the code stores `_fmt(e)` strings and only ever uses their count,
rendering is applied when the block is built), one flag per consulted feed
telling whether `_gnews_fallback` was invoked for that feed's slot, and the
keywords passed to `_gnews_fallback`, in call order. -/
structure SecState where
  items : List Entry
  flags : List Bool
  queries : List (List Char)
deriving DecidableEq

/-- The inner `for e in entries` loop of `_section`: skip titles already
seen, append new ones, stop as soon as 5 items are collected. -/
def scanEntries : List (List Char) → List Entry → List Entry →
    List (List Char) × List Entry
  | seen, items, [] => (seen, items)
  | seen, items, e :: es =>
    if e.title ∈ seen then scanEntries seen items es
    else
      if (items ++ [e]).length = 5 then (e.title :: seen, items ++ [e])
      else scanEntries (e.title :: seen) (items ++ [e]) es

/-- The `for url in feeds` loop of `_section`:
`entries = fp.entries[:10] or _gnews_fallback(kw)`, scan-and-dedup, break
when 5 items are reached. -/
def sectionGo (key : List Char) (gnews : List Char → List Entry)
    (kw : List Char) :
    List (List Char) → List Entry → List (List Entry) → SecState
  | _, items, [] => ⟨items, [], []⟩
  | seen, items, f :: fs =>
    let entries :=
      if f.take 10 = [] then gnewsFallback key gnews kw else f.take 10
    let p := scanEntries seen items entries
    if p.2.length = 5 then
      ⟨p.2, [decide (f.take 10 = [])],
        if f.take 10 = [] then [kw] else []⟩
    else
      ⟨(sectionGo key gnews kw p.1 p.2 fs).items,
        decide (f.take 10 = []) :: (sectionGo key gnews kw p.1 p.2 fs).flags,
        (if f.take 10 = [] then [kw] else []) ++
          (sectionGo key gnews kw p.1 p.2 fs).queries⟩

/-- The network/config environment of one run. -/
structure Env where
  parse : String → List Entry
  gnews : List Char → List Entry
  gnewsKey : List Char
  clientQ : List Char
  today : List Char

/-- `_section(name, feeds)` instrumented, starting from empty `seen`/`items`,
with the fallback keyword `name.split()[0]`. -/
def sectionState (env : Env) (name : List Char)
    (feeds : List (List Entry)) : SecState :=
  sectionGo env.gnewsKey env.gnews (firstWord name) [] [] feeds

/-! `textwrap.dedent` and the block templates. -/

/-- Split on `'\n'` (Python `str.split('\n')`). -/
def splitNl : List Char → List (List Char)
  | [] => [[]]
  | c :: cs =>
    if c = '\n' then [] :: splitNl cs
    else
      match splitNl cs with
      | l :: ls => (c :: l) :: ls
      | [] => [[c]]

/-- Join with a separator (and `'\n'.join`). -/
def joinSep (sep : List Char) : List (List Char) → List Char
  | [] => []
  | [x] => x
  | x :: y :: r => x ++ (sep ++ joinSep sep (y :: r))

def isWsChar (c : Char) : Bool := (c == ' ') || (c == '\t')

/-- A line of only `[ \t]+` (blanked by dedent's first substitution). -/
def isWsOnly (l : List Char) : Bool := l.all isWsChar

def leadingWs (l : List Char) : List Char := l.takeWhile isWsChar

def hasContent (l : List Char) : Bool := l.any fun c => !isWsChar c

def commonPrefix : List Char → List Char → List Char
  | x :: xs, y :: ys => if x = y then x :: commonPrefix xs ys else []
  | _, _ => []

/-- `textwrap.dedent`: blank the whitespace-only lines, compute the common
leading-whitespace margin of the content lines, strip it from every line. -/
def dedent (s : List Char) : List Char :=
  let lines := (splitNl s).map fun l =>
    if l ≠ [] ∧ isWsOnly l = true then [] else l
  let indents := (lines.filter hasContent).map leadingWs
  let margin :=
    match indents with
    | [] => []
    | i :: is => is.foldl commonPrefix i
  joinSep (str ("\n")) (lines.map fun l =>
    if margin.isPrefixOf l then l.drop margin.length else l)

/-- The join separator `'\\n                '` of the item lists: a literal
backslash, `n`, and sixteen spaces (the f-string expression escapes the
backslash, so no real newline is inserted; this requires Python ≥ 3.12,
where backslashes are allowed inside f-string expressions). -/
def itemSep : List Char := str ("\\n                ")

/-- The `_section` category template (before dedent, as in the source). -/
def sectionTemplate (name : List Char) (items : List (List Char)) : List Char :=
  dedent (str ("\n        <article>\n            <h2>") ++ name ++
    str ("</h2>\n            <ul>\n                ") ++
    joinSep itemSep items ++
    str ("\n            </ul>\n        </article>\n        "))

/-- The `_client_block` template. -/
def clientTemplate (q : List Char) (items : List (List Char)) : List Char :=
  dedent (str ("\n        <article>\n            <h2>🔍 Client Watch – ") ++
    escapeHtml q ++
    str ("</h2>\n            <ul>\n                ") ++
    joinSep itemSep items ++
    str ("\n            </ul>\n        </article>\n        "))

/-- The dated heading block `parts[0]` of `build_brief`. -/
def headingOf (today : List Char) : List Char :=
  str ("<article><h2>🗞️ Daily Brief – ") ++ today ++ str ("</h2></article>")

/-- The `"<p><em>(No news fetched)</em></p>"` placeholder. -/
def placeholderFrag : List Char := str ("<p><em>(No news fetched)</em></p>")

/-- The configured categories (name, feed URLs), `CATS` in the source. -/
def CATS : List (String × List String) :=
  [("World Politics",
    ["https://www.swissinfo.ch/service/rss/rss?cid=44628456",
     "https://feeds.bbci.co.uk/news/world/europe/rss.xml"]),
   ("Tech & AI",
    ["https://www.nzz.ch/digital.rss",
     "https://www.handelszeitung.ch/taxonomy/term/14774/feed"]),
   ("Finance & Economy",
    ["https://www.nzz.ch/wirtschaft.rss",
     "https://www.handelsblatt.com/contentexport/feed/finance.rss"]),
   ("Innovation",
    ["https://www.sciencenews.org/feed",
     "https://www.swissinfo.ch/service/rss/rss?cid=41842338"])]

/-- `_section(name, feeds)`: empty string when no item was collected,
otherwise the rendered category block. -/
def sectionBlock (env : Env) (name : List Char) (urls : List String) :
    List Char :=
  let st := sectionState env name (urls.map env.parse)
  if st.items = [] then [] else sectionTemplate name (st.items.map fmt)

/-- `_client_block(CLIENT_QUERY)`. -/
def clientBlock (env : Env) : List Char :=
  if env.clientQ = [] then []
  else
    let entries := gnewsFallback env.gnewsKey env.gnews env.clientQ
    if entries = [] then []
    else clientTemplate env.clientQ (entries.map fmt)

/-- The `parts` list built by `build_brief`. -/
def briefParts (env : Env) : List (List Char) :=
  [headingOf env.today] ++
    (CATS.filterMap fun p =>
      if sectionBlock env (str p.1) p.2 = [] then none
      else some (sectionBlock env (str p.1) p.2)) ++
    (if clientBlock env = [] then none else some (clientBlock env)).toList

/-- `build_brief()`: `"\n".join(parts) if len(parts) > 1 else ""`. -/
def buildBrief (env : Env) : List Char :=
  if (briefParts env).length > 1 then joinSep (str ("\n")) (briefParts env)
  else []

/-- `brief_html = build_brief() or "<p><em>(No news fetched)</em></p>"`. -/
def fragmentOf (env : Env) : List Char :=
  if buildBrief env = [] then placeholderFrag else buildBrief env

theorem take10_nil (f : List Entry) : f.take 10 = [] ↔ f = [] := by
  cases f <;> simp

theorem scanEntries_le :
    ∀ (es : List Entry) (seen : List (List Char)) (items : List Entry),
      items.length < 5 → (scanEntries seen items es).2.length ≤ 5 := by
  intro es
  induction es with
  | nil => intro seen items h; exact Nat.le_of_lt h
  | cons e es ih =>
    intro seen items h
    rw [scanEntries]
    by_cases hm : e.title ∈ seen
    · rw [if_pos hm]
      exact ih seen items h
    · rw [if_neg hm]
      by_cases h5 : (items ++ [e]).length = 5
      · rw [if_pos h5]
        exact Nat.le_of_eq h5
      · rw [if_neg h5]
        apply ih
        rw [List.length_append] at h5 ⊢
        simp only [List.length_cons, List.length_nil] at h5 ⊢
        omega

theorem sectionGo_le (key : List Char) (gnews : List Char → List Entry)
    (kw : List Char) :
    ∀ (fs : List (List Entry)) (seen : List (List Char)) (items : List Entry),
      items.length < 5 →
      (sectionGo key gnews kw seen items fs).items.length ≤ 5 := by
  intro fs
  induction fs with
  | nil => intro seen items h; exact Nat.le_of_lt h
  | cons f fs ih =>
    intro seen items h
    simp only [sectionGo]
    by_cases h5 : (scanEntries seen items
        (if f.take 10 = [] then gnewsFallback key gnews kw
          else f.take 10)).2.length = 5
    · rw [if_pos h5]
      exact Nat.le_of_eq h5
    · rw [if_neg h5]
      apply ih
      have hle := scanEntries_le
        (if f.take 10 = [] then gnewsFallback key gnews kw else f.take 10)
        seen items h
      omega

theorem scanEntries_nodup :
    ∀ (es : List Entry) (seen : List (List Char)) (items : List Entry),
      (∀ e ∈ items, e.title ∈ seen) → (items.map Entry.title).Nodup →
      (∀ e ∈ (scanEntries seen items es).2,
          e.title ∈ (scanEntries seen items es).1) ∧
        ((scanEntries seen items es).2.map Entry.title).Nodup := by
  intro es
  induction es with
  | nil => intro seen items h1 h2; exact ⟨h1, h2⟩
  | cons e es ih =>
    intro seen items h1 h2
    rw [scanEntries]
    by_cases hm : e.title ∈ seen
    · rw [if_pos hm]
      exact ih seen items h1 h2
    · rw [if_neg hm]
      have h1' : ∀ x ∈ items ++ [e], x.title ∈ e.title :: seen := by
        intro x hx
        rcases List.mem_append.mp hx with hx | hx
        · exact List.mem_cons_of_mem _ (h1 x hx)
        · simp only [List.mem_singleton] at hx
          subst hx
          exact List.mem_cons_self _ _
      have h2' : ((items ++ [e]).map Entry.title).Nodup := by
        rw [List.map_append, List.nodup_append]
        refine ⟨h2, by simp, ?_⟩
        intro t ht
        obtain ⟨x, hx, rfl⟩ := List.mem_map.mp ht
        simp only [List.map_cons, List.map_nil, List.mem_singleton]
        intro hc
        exact hm (hc ▸ h1 x hx)
      by_cases h5 : (items ++ [e]).length = 5
      · rw [if_pos h5]
        exact ⟨h1', h2'⟩
      · rw [if_neg h5]
        exact ih _ _ h1' h2'

theorem sectionGo_nodup (key : List Char) (gnews : List Char → List Entry)
    (kw : List Char) :
    ∀ (fs : List (List Entry)) (seen : List (List Char)) (items : List Entry),
      (∀ e ∈ items, e.title ∈ seen) → (items.map Entry.title).Nodup →
      ((sectionGo key gnews kw seen items fs).items.map Entry.title).Nodup := by
  intro fs
  induction fs with
  | nil => intro seen items _ h2; exact h2
  | cons f fs ih =>
    intro seen items h1 h2
    simp only [sectionGo]
    by_cases h5 : (scanEntries seen items
        (if f.take 10 = [] then gnewsFallback key gnews kw
          else f.take 10)).2.length = 5
    · rw [if_pos h5]
      exact (scanEntries_nodup _ seen items h1 h2).2
    · rw [if_neg h5]
      exact ih _ _ (scanEntries_nodup _ seen items h1 h2).1
        (scanEntries_nodup _ seen items h1 h2).2

theorem sectionGo_flags (key : List Char) (gnews : List Char → List Entry)
    (kw : List Char) :
    ∀ (fs : List (List Entry)) (seen : List (List Char)) (items : List Entry),
      (sectionGo key gnews kw seen items fs).flags.length ≤ fs.length ∧
        ∀ i b g, (sectionGo key gnews kw seen items fs).flags.get? i = some b →
          fs.get? i = some g → (b = true ↔ g = []) := by
  intro fs
  induction fs with
  | nil =>
    intro seen items
    refine ⟨Nat.le.refl, ?_⟩
    intro i b g hb _
    cases i <;> simp [sectionGo] at hb
  | cons f fs ih =>
    intro seen items
    simp only [sectionGo]
    by_cases h5 : (scanEntries seen items
        (if f.take 10 = [] then gnewsFallback key gnews kw
          else f.take 10)).2.length = 5
    · rw [if_pos h5]
      constructor
      · show ([decide (f.take 10 = [])]).length ≤ (f :: fs).length
        simp
      · intro i b g hb hg
        cases i with
        | zero =>
          rw [List.get?_cons_zero] at hb hg
          cases hb
          cases hg
          simp [take10_nil]
        | succ j =>
          rw [List.get?_cons_succ] at hb
          simp at hb
    · rw [if_neg h5]
      constructor
      · show (decide (f.take 10 = []) ::
            (sectionGo key gnews kw _ _ fs).flags).length ≤ (f :: fs).length
        simp only [List.length_cons, List.length_cons]
        exact Nat.succ_le_succ (ih _ _).1
      · intro i b g hb hg
        cases i with
        | zero =>
          rw [List.get?_cons_zero] at hb hg
          cases hb
          cases hg
          simp [take10_nil]
        | succ j =>
          rw [List.get?_cons_succ] at hb hg
          exact (ih _ _).2 j b g hb hg

theorem sectionGo_queries (key : List Char) (gnews : List Char → List Entry)
    (kw : List Char) :
    ∀ (fs : List (List Entry)) (seen : List (List Char)) (items : List Entry)
      (q : List Char),
      q ∈ (sectionGo key gnews kw seen items fs).queries → q = kw := by
  intro fs
  induction fs with
  | nil => intro seen items q hq; simp [sectionGo] at hq
  | cons f fs ih =>
    intro seen items q hq
    simp only [sectionGo] at hq
    by_cases h5 : (scanEntries seen items
        (if f.take 10 = [] then gnewsFallback key gnews kw
          else f.take 10)).2.length = 5
    · rw [if_pos h5] at hq
      simp at hq
      exact hq.2
    · rw [if_neg h5] at hq
      have hq' : q ∈ (if f.take 10 = [] then [kw] else []) ++
          (sectionGo key gnews kw (scanEntries seen items
            (if f.take 10 = [] then gnewsFallback key gnews kw
              else f.take 10)).1 (scanEntries seen items
            (if f.take 10 = [] then gnewsFallback key gnews kw
              else f.take 10)).2 fs).queries := hq
      rcases List.mem_append.mp hq' with h | h
      · simp at h
        exact h.2
      · exact ih _ _ q h

/-- An environment in which every feed, the GNews oracle, the API key and the
client keyword are empty. -/
def env0 : Env :=
  { parse := fun _ => [], gnews := fun _ => [], gnewsKey := [],
    clientQ := [], today := str ("07 Oct 2025") }

def eA : Entry := ⟨str ("A"), str ("u1"), []⟩

def eB : Entry := ⟨str ("B"), str ("u2"), []⟩

def eB2 : Entry := ⟨str ("B"), str ("u3"), []⟩

def eC : Entry := ⟨str ("C"), str ("u4"), []⟩

def eW : Entry := ⟨str ("world news"), str ("uw"), []⟩

def eX : Entry := ⟨str ("other news"), str ("ux"), []⟩

/-- An environment whose GNews oracle distinguishes the keyword
`"World"` from `"World Politics"`, with a key set. -/
def envW : Env :=
  { parse := fun _ => [], gnewsKey := str ("k"), clientQ := [],
    today := str ("07 Oct 2025"),
    gnews := fun kw => if kw = str ("World") then [eW] else [eX] }

/-- C2: for every environment (hence any fallback behaviour), category name
and sequence of per-feed source results, `_section` collects at most 5 items. -/
theorem category_cap (env : Env) (name : List Char)
    (feeds : List (List Entry)) :
    (sectionState env name feeds).items.length ≤ 5 :=
  sectionGo_le env.gnewsKey env.gnews (firstWord name) feeds [] []
    (by simp)

/-- C3: the aggregation never keeps two items with the same title (the dedup
key is the exact title string), and on the specified scenario — two feeds
with titles `["A","B"]` and `["B","C"]` — it yields exactly the titles
`["A","B","C"]` in discovery order, the duplicate `"B"` skipped. -/
theorem category_dedup_order :
    (∀ (env : Env) (name : List Char) (feeds : List (List Entry)),
      ((sectionState env name feeds).items.map Entry.title).Nodup) ∧
    (sectionState env0 (str ("Tech")) [[eA, eB], [eB2, eC]]).items.map
        Entry.title = [str ("A"), str ("B"), str ("C")] := by
  constructor
  · intro env name feeds
    exact sectionGo_nodup env.gnewsKey env.gnews (firstWord name) feeds [] []
      (by simp) (by simp)
  · decide

/-- C4: one fallback decision is recorded per consulted feed (at most one per
feed, feeds after the early 5-item break are not consulted at all, so their
fallback is never queried either), and for every consulted feed the fallback
is invoked if and only if that feed's parse produced zero entries. -/
theorem fallback_iff_empty_primary (env : Env) (name : List Char)
    (feeds : List (List Entry)) :
    (sectionState env name feeds).flags.length ≤ feeds.length ∧
      ∀ i b g, (sectionState env name feeds).flags.get? i = some b →
        feeds.get? i = some g → (b = true ↔ g = []) :=
  sectionGo_flags env.gnewsKey env.gnews (firstWord name) feeds [] []

/-- C4 witness: on the feeds `[[], [eA]]` the fallback flag of the first
(empty) consulted feed is `true`. -/
theorem fallback_iff_empty_primary_witness :
    (sectionState env0 (str ("Tech & AI")) [[], [eA]]).flags.length ≤
        ([[], [eA]] : List (List Entry)).length ∧
      (true = true ↔ ([] : List Entry) = []) :=
  ⟨(fallback_iff_empty_primary env0 (str ("Tech & AI")) [[], [eA]]).1,
   (fallback_iff_empty_primary env0 (str ("Tech & AI")) [[], [eA]]).2 0 true []
     (by decide) (by decide)⟩

/-- C9 (amended): every keyword ever passed to the GNews fallback by
`_section` is `name.split()[0]`, the first whitespace-separated word of the
category name — not the full category name, and there is no per-category
fallback-keyword configuration in the script. -/
theorem fallback_keyword_first_word (env : Env) (name : List Char)
    (feeds : List (List Entry)) :
    ∀ q ∈ (sectionState env name feeds).queries, q = firstWord name :=
  fun q hq =>
    sectionGo_queries env.gnewsKey env.gnews (firstWord name) feeds [] [] q hq

/-- C9 witness: for the category name `"World Politics"` the queried keyword
equals its first word. -/
theorem fallback_keyword_first_word_witness :
    (str ("World") : List Char) = firstWord (str ("World Politics")) :=
  fallback_keyword_first_word envW (str ("World Politics")) [[]]
    (str ("World")) (by decide)

/-- C9 counterexample: for category `"World Politics"` with an empty primary
feed, the fallback is queried with `"World"` (and returns that keyword's
results), not with the category name `"World Politics"`: the claim's keyword
choice is false as stated. -/
theorem fallback_keyword_counterexample :
    (sectionState envW (str ("World Politics")) [[]]).queries =
        [str ("World")] ∧
      (sectionState envW (str ("World Politics")) [[]]).items = [eW] ∧
      (str ("World") : List Char) ≠ str ("World Politics") := by
  decide

/-- C7 (amended): when `build_brief()` returns a non-empty brief (some
category or the watch block has content) the fragment handed to the patcher
begins with the dated heading block; when the brief is empty the fragment is
the `(No news fetched)` placeholder, which does not carry the heading. -/
theorem brief_heading_or_placeholder (env : Env) :
    (buildBrief env = [] → fragmentOf env = placeholderFrag) ∧
      (buildBrief env ≠ [] →
        ∃ rest, fragmentOf env = headingOf env.today ++ rest) := by
  constructor
  · intro h
    rw [fragmentOf, if_pos h]
  · intro h
    rw [fragmentOf, if_neg h]
    rw [buildBrief] at h ⊢
    by_cases hl : (briefParts env).length > 1
    · rw [if_pos hl] at h ⊢
      have hshape : ∃ tail, briefParts env = headingOf env.today :: tail := by
        rw [briefParts]
        exact ⟨_, rfl⟩
      obtain ⟨tail, htail⟩ := hshape
      cases tail with
      | nil =>
        rw [htail] at hl
        simp at hl
      | cons y r =>
        rw [htail]
        exact ⟨str ("\n") ++ joinSep (str ("\n")) (y :: r), rfl⟩
    · rw [if_neg hl] at h
      exact absurd rfl h

/-- C7 witness: the amended theorem applied at the all-empty environment. -/
theorem brief_heading_or_placeholder_witness :
    fragmentOf env0 = placeholderFrag :=
  (brief_heading_or_placeholder env0).1 (by decide)

/-- C7 counterexample: in the all-empty run the composed fragment is the
placeholder, whose first characters differ from the dated heading block's, so
the fragment does not begin with a dated heading: the claim's "regardless of
whether any category has content" is false. -/
theorem brief_heading_counterexample :
    fragmentOf env0 = placeholderFrag ∧
      (fragmentOf env0).take 9 ≠ (headingOf env0.today).take 9 := by
  decide

/-- C8: if every configured category's aggregation and the client-watch block
yield nothing, the fragment handed to the patcher is the non-empty
`(No news fetched)` placeholder, and patching any start-marker-free document
with it still inserts exactly one marker-bounded region containing it. -/
theorem empty_universe_placeholder (env : Env)
    (hc : ∀ p ∈ CATS,
      (sectionState env (str p.1) (p.2.map env.parse)).items = [])
    (hw : clientBlock env = []) :
    fragmentOf env = placeholderFrag ∧ placeholderFrag ≠ [] ∧
      ∀ doc, containsCI START' doc = false →
        ∃ a b,
          patchDoc doc placeholderFrag = a ++ wrapFrag placeholderFrag ++ b ∧
          stripAll (patchDoc doc placeholderFrag) = a ++ b ∧
          containsCI START' a = false ∧ containsCI START' b = false := by
  have hblocks : ∀ p ∈ CATS, sectionBlock env (str p.1) p.2 = [] := by
    intro p hp
    rw [sectionBlock]
    rw [if_pos (hc p hp)]
  have hparts : briefParts env = [headingOf env.today] := by
    rw [briefParts]
    have hfm : (CATS.filterMap fun p =>
        if sectionBlock env (str p.1) p.2 = [] then none
        else some (sectionBlock env (str p.1) p.2)) = [] := by
      rw [List.filterMap_eq_nil_iff]
      intro p hp
      rw [if_pos (hblocks p hp)]
    rw [hfm, hw]
    simp
  have hempty : buildBrief env = [] := by
    rw [buildBrief, hparts]
    simp
  refine ⟨by rw [fragmentOf, if_pos hempty], by decide, ?_⟩
  intro doc hdoc
  exact (patch_region_core doc placeholderFrag hdoc (by decide)).2

/-- C8 witness: the theorem applied at the all-empty environment (the
placeholder fragment is produced and is non-empty). -/
theorem empty_universe_placeholder_witness :
    fragmentOf env0 = placeholderFrag ∧ placeholderFrag ≠ [] := by
  have h := empty_universe_placeholder env0 (by decide) (by decide)
  exact ⟨h.1, h.2.1⟩

end FetchNews
